import Mathlib

/-!
Verification of the rust-sha1 crate (src/lib.rs): a shallow embedding of the
SHA-1 hasher state machine and proofs of the specification claims.

Machine integers are modelled as Nat with explicit reduction modulo 2^32
(u32) where the Rust code wraps.  Bytes are Nat (values < 256 in all real
executions; byte-bound hypotheses appear where facts depend on it).  The
64-byte chunk array is modelled as a function Nat -> Nat; every read and
write the code performs is at an index < 64 (the checked variants below make
the in-bounds obligations explicit and are proved to succeed).
-/

set_option maxHeartbeats 1000000
set_option maxRecDepth 8000

/-- Model of fn leftrotate(word: u32, bits: u8) -> u32:
(word << bits) | (word >> (32 - bits)).  The u32 left shift truncates
modulo 2^32. -/
def leftrotate (word bits : Nat) : Nat :=
  ((word <<< bits) % 2 ^ 32) ||| (word >>> (32 - bits))

/-- Bitwise complement of a u32 value (Rust !b on u32), for b < 2^32. -/
def wnot (b : Nat) : Nat := b ^^^ 0xFFFFFFFF

/-- Model of u32::from_be_bytes([b0,b1,b2,b3]). -/
def fromBE (b0 b1 b2 b3 : Nat) : Nat :=
  b0 * 2 ^ 24 + b1 * 2 ^ 16 + b2 * 2 ^ 8 + b3

/-- Model of u64::to_be_bytes: the eight big-endian bytes of n (mod 2^64). -/
def beBytes64 (n : Nat) : List Nat :=
  [n / 2 ^ 56 % 256, n / 2 ^ 48 % 256, n / 2 ^ 40 % 256, n / 2 ^ 32 % 256,
   n / 2 ^ 24 % 256, n / 2 ^ 16 % 256, n / 2 ^ 8 % 256, n % 256]

/-- The five working variables a,b,c,d,e of the compression rounds. -/
structure Regs where
  a : Nat
  b : Nat
  c : Nat
  d : Nat
  e : Nat
deriving DecidableEq, Repr

/-- Round function f of round t (the four 20-round groups of the code). -/
def fOf (t : Nat) (r : Regs) : Nat :=
  if t < 20 then (r.b &&& r.c) ||| (wnot r.b &&& r.d)
  else if t < 40 then r.b ^^^ r.c ^^^ r.d
  else if t < 60 then (r.b &&& r.c) ||| (r.b &&& r.d) ||| (r.c &&& r.d)
  else r.b ^^^ r.c ^^^ r.d

/-- Round constant k of round t. -/
def kOf (t : Nat) : Nat :=
  if t < 20 then 0x5A827999
  else if t < 40 then 0x6ED9EBA1
  else if t < 60 then 0x8F1BBCDC
  else 0xCA62C1D6

/-- One round of the shuffle macro: tmp is the chain of wrapping_add calls
(each reduction mod 2^32 folded into a single one), then the pipeline shift
e=d; d=c; c=leftrotate(b,30); b=a; a=tmp. -/
def stepRound (w f k : Nat) (r : Regs) : Regs :=
  { a := (leftrotate r.a 5 + f + r.e + k + w) % 2 ^ 32
    b := r.a
    c := leftrotate r.b 30
    d := r.c
    e := r.d }

/-- The 80 compression rounds (the four for-loops of process_chunk),
with w the 80-word message schedule. -/
def rounds (w : List Nat) (r0 : Regs) : Regs :=
  (List.range 80).foldl (fun r t => stepRound (w.getD t 0) (fOf t r) (kOf t) r) r0

/-- The message schedule as the implementation builds it: the first loop
extends indices 16..32 with a rotate-by-1 of w[i-3]^w[i-8]^w[i-14]^w[i-16],
the second extends indices 32..80 with a rotate-by-2 of
w[i-6]^w[i-16]^w[i-28]^w[i-32]. -/
def scheduleImpl (w16 : List Nat) : List Nat :=
  let ws1 := (List.range' 16 16).foldl
    (fun ws i => ws ++ [leftrotate
      (ws.getD (i - 3) 0 ^^^ ws.getD (i - 8) 0 ^^^ ws.getD (i - 14) 0 ^^^ ws.getD (i - 16) 0) 1])
    w16
  (List.range' 32 48).foldl
    (fun ws i => ws ++ [leftrotate
      (ws.getD (i - 6) 0 ^^^ ws.getD (i - 16) 0 ^^^ ws.getD (i - 28) 0 ^^^ ws.getD (i - 32) 0) 2])
    ws1

/-- The canonical message schedule per the standard (and the spec text):
the single rotate-by-1 recurrence applied for all i in 16..80. -/
def scheduleCanon (w16 : List Nat) : List Nat :=
  (List.range' 16 64).foldl
    (fun ws i => ws ++ [leftrotate
      (ws.getD (i - 3) 0 ^^^ ws.getD (i - 8) 0 ^^^ ws.getD (i - 14) 0 ^^^ ws.getD (i - 16) 0) 1])
    w16

/-- The sixteen big-endian 32-bit words of a 64-byte block. -/
def wordsOf (block : List Nat) : List Nat :=
  (List.range 16).map (fun i =>
    fromBE (block.getD (4 * i) 0) (block.getD (4 * i + 1) 0)
           (block.getD (4 * i + 2) 0) (block.getD (4 * i + 3) 0))

/-- SHA-1 hash context, mirroring pub struct Sha1.  The chunk array
[u8; 64] is a function from index to byte value. -/
structure Sha1 where
  chunk : Nat → Nat
  used : Nat
  chunks_processed : Nat
  h0 : Nat
  h1 : Nat
  h2 : Nat
  h3 : Nat
  h4 : Nat

/-- Model of Sha1::new(). -/
def Sha1.new : Sha1 :=
  { chunk := fun _ => 0
    used := 0
    chunks_processed := 0
    h0 := 0x67452301
    h1 := 0xEFCDAB89
    h2 := 0x98BADCFE
    h3 := 0x10325476
    h4 := 0xC3D2E1F0 }

/-- Model of Sha1::reset(): does not touch the chunk contents. -/
def Sha1.reset (s : Sha1) : Sha1 :=
  { s with
    used := 0
    chunks_processed := 0
    h0 := 0x67452301
    h1 := 0xEFCDAB89
    h2 := 0x98BADCFE
    h3 := 0x10325476
    h4 := 0xC3D2E1F0 }

/-- Overwriting chunk positions [start, start + data.length) with data:
the effect of copy_from_slice into that range. -/
def writeRange (chunk : Nat → Nat) (start : Nat) (data : List Nat) : Nat → Nat :=
  fun j => if start ≤ j ∧ j < start + data.length then data.getD (j - start) 0 else chunk j

/-- Zeroing chunk positions [a, b): the effect of the zero-fill loops. -/
def zeroRange (chunk : Nat → Nat) (a b : Nat) : Nat → Nat :=
  fun j => if a ≤ j ∧ j < b then 0 else chunk j

/-- Model of Sha1::process_chunk: load the sixteen big-endian words from the
chunk, extend to the 80-word schedule, run the 80 rounds, add the result
back into h0..h4 (wrapping) and increment chunks_processed. -/
def Sha1.process_chunk (s : Sha1) : Sha1 :=
  let w16 := (List.range 16).map (fun i =>
    fromBE (s.chunk (4 * i)) (s.chunk (4 * i + 1)) (s.chunk (4 * i + 2)) (s.chunk (4 * i + 3)))
  let w := scheduleImpl w16
  let r := rounds w { a := s.h0, b := s.h1, c := s.h2, d := s.h3, e := s.h4 }
  { s with
    chunks_processed := s.chunks_processed + 1
    h0 := (s.h0 + r.a) % 2 ^ 32
    h1 := (s.h1 + r.b) % 2 ^ 32
    h2 := (s.h2 + r.c) % 2 ^ 32
    h3 := (s.h3 + r.d) % 2 ^ 32
    h4 := (s.h4 + r.e) % 2 ^ 32 }

/-- The while loop of Sha1::update, with used the local fill counter and
data the not-yet-consumed input (the code advances an index i; the model
drops consumed bytes instead).  While the remaining input can fill the rest
of the chunk, data[i..i+free) is copied into chunk[used..64) and the chunk
processed; afterwards the remainder is copied at position used and the
used field set. -/
def Sha1.updateLoop (s : Sha1) (used : Nat) (data : List Nat) : Sha1 :=
  let free := 64 - used
  if _h : free ≤ data.length then
    let s1 := { s with chunk := writeRange s.chunk used (data.take free) }
    let s2 := s1.process_chunk
    Sha1.updateLoop s2 0 (data.drop free)
  else
    { s with chunk := writeRange s.chunk used data, used := used + data.length }
termination_by data.length + used
decreasing_by
  simp only [List.length_drop]
  omega

/-- Model of Sha1::update. -/
def Sha1.update (s : Sha1) (data : List Nat) : Sha1 :=
  s.updateLoop s.used data

/-- Model of Sha1::finish, returning the mutated state together with the
returned digest words [h0,h1,h2,h3,h4]. -/
def Sha1.finish (s : Sha1) : Sha1 × List Nat :=
  let messageLength := s.chunks_processed * 512 + 8 * s.used
  let s1 := { s with chunk := writeRange s.chunk s.used [0x80], used := s.used + 1 }
  let s2 :=
    if s1.used ≤ 56 then
      { s1 with chunk := zeroRange s1.chunk s1.used 56 }
    else
      let sA := { s1 with chunk := zeroRange s1.chunk s1.used 64 }
      let sB := sA.process_chunk
      { sB with chunk := zeroRange sB.chunk 0 sB.used }
  let s3 := { s2 with chunk := writeRange s2.chunk 56 (beBytes64 messageLength) }
  let s4 := s3.process_chunk
  (s4, [s4.h0, s4.h1, s4.h2, s4.h3, s4.h4])

/-- Model of Sha1::digest. -/
def Sha1.digest (data : List Nat) : List Nat :=
  let s := Sha1.new
  let s := s.update data
  (s.finish).2

/-- Model of the Write impl: write calls update and returns Ok(data.len()). -/
def Sha1.write (s : Sha1) (data : List Nat) : Sha1 × Except String Nat :=
  (s.update data, Except.ok data.length)

/-- Model of the Write impl: flush does nothing and returns Ok(()). -/
def Sha1.flush (s : Sha1) : Sha1 × Except String Unit :=
  (s, Except.ok ())

/-!
Checked variants.  These mirror the same code but make the implicit runtime
obligations of the Rust source explicit: a leftrotate call must have its
rotation amount in [1, 31] (a shift by 32 or more is a fault), and every
slice or index expression must be in bounds (an out-of-bounds index is a
panic).  A result of none models a panic.
-/

/-- leftrotate with its domain guard 1 <= bits <= 31 made explicit. -/
def leftrotateChecked (word bits : Nat) : Option Nat :=
  if 1 ≤ bits ∧ bits ≤ 31 then some (leftrotate word bits) else none

/-- One checked compression round. -/
def stepRoundChecked (w f k : Nat) (r : Regs) : Option Regs :=
  (leftrotateChecked r.a 5).bind (fun x =>
    (leftrotateChecked r.b 30).bind (fun c2 =>
      some { a := (x + f + r.e + k + w) % 2 ^ 32, b := r.a, c := c2, d := r.c, e := r.d }))

/-- The checked 80 compression rounds. -/
def roundsChecked (w : List Nat) (r0 : Regs) : Option Regs :=
  (List.range 80).foldlM (fun r t => stepRoundChecked (w.getD t 0) (fOf t r) (kOf t) r) r0

/-- The checked message schedule construction. -/
def scheduleImplChecked (w16 : List Nat) : Option (List Nat) :=
  ((List.range' 16 16).foldlM
    (fun ws i =>
      (leftrotateChecked
        (ws.getD (i - 3) 0 ^^^ ws.getD (i - 8) 0 ^^^ ws.getD (i - 14) 0 ^^^ ws.getD (i - 16) 0)
        1).bind (fun x => some (ws ++ [x])))
    w16).bind (fun ws1 =>
  (List.range' 32 48).foldlM
    (fun ws i =>
      (leftrotateChecked
        (ws.getD (i - 6) 0 ^^^ ws.getD (i - 16) 0 ^^^ ws.getD (i - 28) 0 ^^^ ws.getD (i - 32) 0)
        2).bind (fun x => some (ws ++ [x])))
    ws1)

/-- Checked process_chunk: the sixteen chunk reads are at literal indices
below 64, so only the rotations carry guards. -/
def Sha1.process_chunk_checked (s : Sha1) : Option Sha1 :=
  (scheduleImplChecked ((List.range 16).map (fun i =>
    fromBE (s.chunk (4 * i)) (s.chunk (4 * i + 1)) (s.chunk (4 * i + 2)) (s.chunk (4 * i + 3))))
  ).bind (fun w =>
    (roundsChecked w { a := s.h0, b := s.h1, c := s.h2, d := s.h3, e := s.h4 }).bind (fun r =>
      some { s with
        chunks_processed := s.chunks_processed + 1
        h0 := (s.h0 + r.a) % 2 ^ 32
        h1 := (s.h1 + r.b) % 2 ^ 32
        h2 := (s.h2 + r.c) % 2 ^ 32
        h3 := (s.h3 + r.d) % 2 ^ 32
        h4 := (s.h4 + r.e) % 2 ^ 32 }))

/-- The checked update loop.  The guards are the bounds of the slice
expressions chunk[used..64] (needs used <= 64) and
chunk[used..used+remaining] (needs used + remaining <= 64); the input-side
slices data[i..i+free] and data[i..] are in bounds by the loop condition. -/
def Sha1.update_loop_checked (s : Sha1) (used : Nat) (data : List Nat) : Option Sha1 :=
  let free := 64 - used
  if _h : free ≤ data.length then
    if used ≤ 64 then
      (Sha1.process_chunk_checked
        { s with chunk := writeRange s.chunk used (data.take free) }).bind
        (fun s2 => Sha1.update_loop_checked s2 0 (data.drop free))
    else none
  else
    if used + data.length ≤ 64 then
      some { s with chunk := writeRange s.chunk used data, used := used + data.length }
    else none
termination_by data.length + used
decreasing_by
  simp only [List.length_drop]
  omega

/-- Checked Sha1::update. -/
def Sha1.update_checked (s : Sha1) (data : List Nat) : Option Sha1 :=
  s.update_loop_checked s.used data

/-- Checked Sha1::finish.  The write chunk[self.used] = 0x80 requires
used < 64; everything after it stays within bounds. -/
def Sha1.finish_checked (s : Sha1) : Option (Sha1 × List Nat) :=
  let messageLength := s.chunks_processed * 512 + 8 * s.used
  if s.used < 64 then
    let s1 := { s with chunk := writeRange s.chunk s.used [0x80], used := s.used + 1 }
    (if s1.used ≤ 56 then
        some { s1 with chunk := zeroRange s1.chunk s1.used 56 }
      else
        (Sha1.process_chunk_checked
          { s1 with chunk := zeroRange s1.chunk s1.used 64 }).bind
          (fun sB => some { sB with chunk := zeroRange sB.chunk 0 sB.used })
    ).bind (fun s2 =>
      ((Sha1.process_chunk_checked
        { s2 with chunk := writeRange s2.chunk 56 (beBytes64 messageLength) }).bind
        (fun s4 => some (s4, [s4.h0, s4.h1, s4.h2, s4.h3, s4.h4]))))
  else none

/-- Public operations on the hasher, for stating between-calls invariants. -/
inductive SOp where
  | updOp (data : List Nat)
  | finOp
  | rstOp

/-- Apply one public operation in the checked (panic-aware) semantics. -/
def applyOpChecked (s : Sha1) : SOp → Option Sha1
  | SOp.updOp data => s.update_checked data
  | SOp.finOp => (s.finish_checked).map (fun p => p.1)
  | SOp.rstOp => some s.reset

/-- Run a sequence of public operations from a fresh state; none models a
panic somewhere along the way. -/
def runOpsChecked (ops : List SOp) : Option Sha1 :=
  ops.foldlM applyOpChecked Sha1.new

/-!
Specification-side definitions, for the refinement claims.  These follow the
words of the spec (standard SHA-1: pad the whole message, then compress the
64-byte blocks in order with the canonical schedule), not the incremental
code, and are compared with the code model in the theorems below.
-/

/-- The initial hash value as a five-element list. -/
def initHash : List Nat := [0x67452301, 0xEFCDAB89, 0x98BADCFE, 0x10325476, 0xC3D2E1F0]

/-- One compression with the implementation schedule, at the level of an
explicit 64-byte block list. -/
def compressImpl (h block : List Nat) : List Nat :=
  let r := rounds (scheduleImpl (wordsOf block))
    { a := h.getD 0 0, b := h.getD 1 0, c := h.getD 2 0, d := h.getD 3 0, e := h.getD 4 0 }
  [(h.getD 0 0 + r.a) % 2 ^ 32, (h.getD 1 0 + r.b) % 2 ^ 32, (h.getD 2 0 + r.c) % 2 ^ 32,
   (h.getD 3 0 + r.d) % 2 ^ 32, (h.getD 4 0 + r.e) % 2 ^ 32]

/-- Modelled from the spec: one compression with the canonical
single-rotate-by-1 schedule. -/
def compressSpec (h block : List Nat) : List Nat :=
  let r := rounds (scheduleCanon (wordsOf block))
    { a := h.getD 0 0, b := h.getD 1 0, c := h.getD 2 0, d := h.getD 3 0, e := h.getD 4 0 }
  [(h.getD 0 0 + r.a) % 2 ^ 32, (h.getD 1 0 + r.b) % 2 ^ 32, (h.getD 2 0 + r.c) % 2 ^ 32,
   (h.getD 3 0 + r.d) % 2 ^ 32, (h.getD 4 0 + r.e) % 2 ^ 32]

/-- The complete leading 64-byte blocks of a byte list. -/
def fullChunks (l : List Nat) : List (List Nat) :=
  if _h : 64 ≤ l.length then l.take 64 :: fullChunks (l.drop 64) else []
termination_by l.length
decreasing_by
  simp only [List.length_drop]
  omega

/-- The remainder of a byte list after its complete 64-byte blocks. -/
def remBytes (l : List Nat) : List Nat :=
  if _h : 64 ≤ l.length then remBytes (l.drop 64) else l
termination_by l.length
decreasing_by
  simp only [List.length_drop]
  omega

/-- Modelled from the spec: standard SHA-1 padding of a message, appending
0x80, then zeros up to 56 mod 64, then the bit length as eight big-endian
bytes. -/
def padSpec (m : List Nat) : List Nat :=
  m ++ 0x80 :: (List.replicate ((64 - (m.length + 9) % 64) % 64) 0 ++ beBytes64 (8 * m.length))

/-- Modelled from the spec: the canonical SHA-1 digest (five 32-bit words)
of a message, as defined by the standard. -/
def sha1Spec (m : List Nat) : List Nat :=
  (fullChunks (padSpec m)).foldl compressSpec initHash

/-- The canonical schedule recurrence as a function, for proofs. -/
def wCanonF (v : Nat → Nat) : Nat → Nat
  | i =>
    if _h : i < 16 then v i
    else leftrotate
      (wCanonF v (i - 3) ^^^ wCanonF v (i - 8) ^^^ wCanonF v (i - 14) ^^^ wCanonF v (i - 16)) 1
termination_by i => i
decreasing_by
  all_goals omega

/-- The digest words of a state as a list. -/
def Sha1.hs (s : Sha1) : List Nat := [s.h0, s.h1, s.h2, s.h3, s.h4]

/-- The buffered (not yet compressed) bytes of a state. -/
def Sha1.buf (s : Sha1) : List Nat := (List.range s.used).map s.chunk

/-- The 64 bytes of the chunk array as a list. -/
def blockOf (chunk : Nat → Nat) : List Nat := (List.range 64).map chunk

/-- The padding tail that finish appends after the buffered bytes: 0x80,
zeros, and the pre-padding bit length (cp blocks and used bytes) as eight
big-endian bytes. -/
def padTail (used cp : Nat) : List Nat :=
  0x80 :: (List.replicate (if used < 56 then 55 - used else 119 - used) 0 ++
    beBytes64 (cp * 512 + 8 * used))

/-!
Bit-level facts about leftrotate on 32-bit values.
-/

lemma testBit_ge32 {w i : Nat} (hw : w < 2 ^ 32) (hi : 32 ≤ i) : w.testBit i = false :=
  Nat.testBit_lt_two_pow (lt_of_lt_of_le hw (Nat.pow_le_pow_right (by norm_num) hi))

lemma leftrotate_lt {w : Nat} (b : Nat) (hw : w < 2 ^ 32) : leftrotate w b < 2 ^ 32 := by
  unfold leftrotate
  apply Nat.or_lt_two_pow
  · exact Nat.mod_lt _ (by norm_num)
  · rw [Nat.shiftRight_eq_div_pow]
    exact lt_of_le_of_lt (Nat.div_le_self _ _) hw

lemma testBit_leftrotate {w : Nat} (b i : Nat) (hb : b ≤ 32) (hw : w < 2 ^ 32) :
    (leftrotate w b).testBit i =
      if i < 32 then (if b ≤ i then w.testBit (i - b) else w.testBit (32 - b + i)) else false := by
  unfold leftrotate
  rw [Nat.testBit_lor, Nat.testBit_mod_two_pow, Nat.testBit_shiftLeft, Nat.testBit_shiftRight]
  by_cases h32 : i < 32
  · by_cases hbi : b ≤ i
    · have hhigh : w.testBit (32 - b + i) = false := testBit_ge32 hw (by omega)
      simp [h32, hbi, hhigh, ge_iff_le]
    · simp [h32, hbi, ge_iff_le]
  · have h1 : w.testBit (32 - b + i) = false := testBit_ge32 hw (by omega)
    simp [h32, h1]

lemma leftrotate_xor {x y : Nat} (b : Nat) (hb : b ≤ 32) (hx : x < 2 ^ 32) (hy : y < 2 ^ 32) :
    leftrotate (x ^^^ y) b = leftrotate x b ^^^ leftrotate y b := by
  apply Nat.eq_of_testBit_eq
  intro i
  rw [Nat.testBit_xor, testBit_leftrotate b i hb (Nat.xor_lt_two_pow hx hy),
    testBit_leftrotate b i hb hx, testBit_leftrotate b i hb hy]
  by_cases h32 : i < 32
  · by_cases hbi : b ≤ i <;> simp [h32, hbi, Nat.testBit_xor]
  · simp [h32]

lemma testBit_congr (w a b : Nat) (h : a = b) : w.testBit a = w.testBit b := by
  rw [h]

lemma leftrotate_leftrotate {w : Nat} (hw : w < 2 ^ 32) :
    leftrotate (leftrotate w 1) 1 = leftrotate w 2 := by
  apply Nat.eq_of_testBit_eq
  intro i
  rw [testBit_leftrotate 1 i (by norm_num) (leftrotate_lt 1 hw),
    testBit_leftrotate 2 i (by norm_num) hw]
  by_cases h32 : i < 32
  · rw [if_pos h32, if_pos h32]
    by_cases h1 : 1 ≤ i
    · rw [if_pos h1, testBit_leftrotate 1 (i - 1) (by norm_num) hw,
        if_pos (show i - 1 < 32 by omega)]
      by_cases h2 : 2 ≤ i
      · rw [if_pos (show 1 ≤ i - 1 by omega), if_pos h2]
        exact testBit_congr w _ _ (by omega)
      · rw [if_neg (show ¬ 1 ≤ i - 1 by omega), if_neg h2]
        exact testBit_congr w _ _ (by omega)
    · rw [if_neg h1, if_neg (show ¬ 2 ≤ i by omega),
        testBit_leftrotate 1 (32 - 1 + i) (by norm_num) hw,
        if_pos (show 32 - 1 + i < 32 by omega), if_pos (show 1 ≤ 32 - 1 + i by omega)]
      exact testBit_congr w _ _ (by omega)
  · rw [if_neg h32, if_neg h32]

/-!
XOR cancellation helpers for the schedule equivalence.
-/

lemma xor_left_comm (x y z : Nat) : x ^^^ (y ^^^ z) = y ^^^ (x ^^^ z) := by
  rw [← Nat.xor_assoc, Nat.xor_comm x y, Nat.xor_assoc]

lemma xor_cancel_left (x y : Nat) : x ^^^ (x ^^^ y) = y := by
  rw [← Nat.xor_assoc, Nat.xor_self, Nat.zero_xor]

lemma xor_quad_cancel (a p q r e s t u f g : Nat) :
    (a ^^^ p ^^^ q ^^^ r) ^^^ (p ^^^ e ^^^ s ^^^ t) ^^^ (q ^^^ s ^^^ f ^^^ u) ^^^
      (r ^^^ t ^^^ u ^^^ g) = a ^^^ e ^^^ f ^^^ g := by
  simp only [Nat.xor_assoc]
  simp [Nat.xor_comm, xor_left_comm, xor_cancel_left, Nat.xor_self, Nat.xor_zero, Nat.zero_xor]

/-!
The canonical schedule recurrence: bounds, unfolding, and the key identity
justifying the rotate-by-2 form for indices at least 32.
-/

lemma wCanonF_lt (v : Nat → Nat) (hv : ∀ j, j < 16 → v j < 2 ^ 32) :
    ∀ i, wCanonF v i < 2 ^ 32 := by
  intro i
  induction i using Nat.strong_induction_on with
  | _ i ih =>
    rw [wCanonF]
    split
    · exact hv i ‹_›
    · exact leftrotate_lt 1 (Nat.xor_lt_two_pow
        (Nat.xor_lt_two_pow (Nat.xor_lt_two_pow (ih _ (by omega)) (ih _ (by omega)))
          (ih _ (by omega))) (ih _ (by omega)))

lemma wCanonF_eq_of_ge (v : Nat → Nat) (i : Nat) (h16 : 16 ≤ i) :
    wCanonF v i = leftrotate
      (wCanonF v (i - 3) ^^^ wCanonF v (i - 8) ^^^ wCanonF v (i - 14) ^^^ wCanonF v (i - 16)) 1 := by
  rw [wCanonF]
  rw [dif_neg (by omega)]

lemma wCanonF_eq_of_lt (v : Nat → Nat) (i : Nat) (h16 : i < 16) : wCanonF v i = v i := by
  rw [wCanonF]
  rw [dif_pos h16]

lemma wCanonF_two (v : Nat → Nat) (hv : ∀ j, j < 16 → v j < 2 ^ 32) (i : Nat) (hi : 32 ≤ i) :
    wCanonF v i = leftrotate
      (wCanonF v (i - 6) ^^^ wCanonF v (i - 16) ^^^ wCanonF v (i - 28) ^^^ wCanonF v (i - 32)) 2 := by
  have W := wCanonF_lt v hv
  have hx2 : ∀ x y : Nat, x < 2 ^ 32 → y < 2 ^ 32 → x ^^^ y < 2 ^ 32 := fun x y hx hy =>
    Nat.xor_lt_two_pow hx hy
  have hW4 : ∀ j k l m : Nat,
      wCanonF v j ^^^ wCanonF v k ^^^ wCanonF v l ^^^ wCanonF v m < 2 ^ 32 := fun j k l m =>
    hx2 _ _ (hx2 _ _ (hx2 _ _ (W j) (W k)) (W l)) (W m)
  have rotl1_xor4 : ∀ x y : Nat, x < 2 ^ 32 → y < 2 ^ 32 →
      leftrotate x 1 ^^^ leftrotate y 1 = leftrotate (x ^^^ y) 1 := fun x y hx hy =>
    (leftrotate_xor 1 (by norm_num) hx hy).symm
  have h3 : wCanonF v (i - 3) = leftrotate
      (wCanonF v (i - 6) ^^^ wCanonF v (i - 11) ^^^ wCanonF v (i - 17) ^^^ wCanonF v (i - 19)) 1 := by
    rw [wCanonF_eq_of_ge v (i - 3) (by omega)]
    simp only [Nat.sub_sub]
  have h8 : wCanonF v (i - 8) = leftrotate
      (wCanonF v (i - 11) ^^^ wCanonF v (i - 16) ^^^ wCanonF v (i - 22) ^^^ wCanonF v (i - 24)) 1 := by
    rw [wCanonF_eq_of_ge v (i - 8) (by omega)]
    simp only [Nat.sub_sub]
  have h14 : wCanonF v (i - 14) = leftrotate
      (wCanonF v (i - 17) ^^^ wCanonF v (i - 22) ^^^ wCanonF v (i - 28) ^^^ wCanonF v (i - 30)) 1 := by
    rw [wCanonF_eq_of_ge v (i - 14) (by omega)]
    simp only [Nat.sub_sub]
  have h16 : wCanonF v (i - 16) = leftrotate
      (wCanonF v (i - 19) ^^^ wCanonF v (i - 24) ^^^ wCanonF v (i - 30) ^^^ wCanonF v (i - 32)) 1 := by
    rw [wCanonF_eq_of_ge v (i - 16) (by omega)]
    simp only [Nat.sub_sub]
  conv_lhs => rw [wCanonF_eq_of_ge v i (by omega), h16, h3, h8, h14]
  rw [rotl1_xor4 _ _ (hW4 _ _ _ _) (hW4 _ _ _ _),
    rotl1_xor4 _ _ (hx2 _ _ (hW4 _ _ _ _) (hW4 _ _ _ _)) (hW4 _ _ _ _),
    rotl1_xor4 _ _ (hx2 _ _ (hx2 _ _ (hW4 _ _ _ _) (hW4 _ _ _ _)) (hW4 _ _ _ _)) (hW4 _ _ _ _),
    leftrotate_leftrotate (hx2 _ _ (hx2 _ _ (hx2 _ _ (hW4 _ _ _ _) (hW4 _ _ _ _)) (hW4 _ _ _ _))
      (hW4 _ _ _ _))]
  congr 1
  exact xor_quad_cancel (wCanonF v (i - 6)) (wCanonF v (i - 11)) (wCanonF v (i - 17))
    (wCanonF v (i - 19)) (wCanonF v (i - 16)) (wCanonF v (i - 22)) (wCanonF v (i - 24))
    (wCanonF v (i - 30)) (wCanonF v (i - 28)) (wCanonF v (i - 32))

/-!
Characterizing the schedule-building folds: a fold that extends a list one
entry at a time, each entry computed from the prefix, builds the values of a
fixed recurrence.
-/

lemma extendFold_spec (f : List Nat → Nat → Nat) (W : Nat → Nat) (init : List Nat) (a n : Nat)
    (hlen : init.length = a)
    (hinit : ∀ j, j < a → init.getD j 0 = W j)
    (hstep : ∀ ws i, a ≤ i → i < a + n → ws.length = i →
      (∀ j, j < i → ws.getD j 0 = W j) → f ws i = W i) :
    ((List.range' a n).foldl (fun ws i => ws ++ [f ws i]) init).length = a + n ∧
      ∀ j, j < a + n → ((List.range' a n).foldl (fun ws i => ws ++ [f ws i]) init).getD j 0 = W j := by
  induction n with
  | zero => exact ⟨hlen, hinit⟩
  | succ n ih =>
    have ih2 := ih (fun ws i hi1 hi2 => hstep ws i hi1 (by omega))
    rw [List.range'_1_concat, List.foldl_append]
    set res := (List.range' a n).foldl (fun ws i => ws ++ [f ws i]) init with hres
    simp only [List.foldl_cons, List.foldl_nil]
    have hval : f res (a + n) = W (a + n) :=
      hstep res (a + n) (by omega) (by omega) ih2.1 (fun j hj => ih2.2 j (by omega))
    constructor
    · simp only [List.length_append, ih2.1, List.length_cons, List.length_nil]
      omega
    · intro j hj
      by_cases hja : j < a + n
      · rw [List.getD_append _ _ _ _ (by omega)]
        exact ih2.2 j hja
      · have hj2 : j = a + n := by omega
        subst hj2
        rw [List.getD_append_right _ _ _ _ (by omega), ih2.1]
        simp [hval]

/-- Bound for the sixteen words of a byte-bounded block. -/
lemma wordsOf_lt (block : List Nat) (hb : ∀ x ∈ block, x < 256) :
    ∀ j, j < 16 → (wordsOf block).getD j 0 < 2 ^ 32 := by
  intro j hj
  have hbyte : ∀ k : Nat, block.getD k 0 < 256 := by
    intro k
    by_cases hk : k < block.length
    · rw [List.getD_eq_getElem _ 0 hk]
      exact hb _ (List.getElem_mem hk)
    · rw [List.getD_eq_default _ _ (by omega)]
      norm_num
  rw [wordsOf, List.getD_eq_getElem _ 0 (by simp [hj]), List.getElem_map, List.getElem_range]
  unfold fromBE
  have b0 := hbyte (4 * j)
  have b1 := hbyte (4 * j + 1)
  have b2 := hbyte (4 * j + 2)
  have b3 := hbyte (4 * j + 3)
  omega

/-- The canonical schedule list realizes the recurrence wCanonF. -/
lemma scheduleCanon_spec (w16 : List Nat) (h16 : w16.length = 16) :
    (scheduleCanon w16).length = 80 ∧
      ∀ j, j < 80 → (scheduleCanon w16).getD j 0 = wCanonF (fun j => w16.getD j 0) j := by
  unfold scheduleCanon
  have h := extendFold_spec
    (fun ws i => leftrotate
      (ws.getD (i - 3) 0 ^^^ ws.getD (i - 8) 0 ^^^ ws.getD (i - 14) 0 ^^^ ws.getD (i - 16) 0) 1)
    (wCanonF (fun j => w16.getD j 0)) w16 16 64 h16
    (fun j hj => (wCanonF_eq_of_lt (fun j => w16.getD j 0) j hj).symm)
    (fun ws i hi1 hi2 hlen hpre => by
      show leftrotate
        (ws.getD (i - 3) 0 ^^^ ws.getD (i - 8) 0 ^^^ ws.getD (i - 14) 0 ^^^ ws.getD (i - 16) 0) 1 = _
      rw [hpre (i - 3) (by omega), hpre (i - 8) (by omega), hpre (i - 14) (by omega),
        hpre (i - 16) (by omega), ← wCanonF_eq_of_ge _ i hi1])
  exact h

/-- The schedule as the implementation builds it also realizes wCanonF,
provided the sixteen input words are 32-bit values. -/
lemma scheduleImpl_spec (w16 : List Nat) (h16 : w16.length = 16)
    (hv : ∀ j, j < 16 → w16.getD j 0 < 2 ^ 32) :
    (scheduleImpl w16).length = 80 ∧
      ∀ j, j < 80 → (scheduleImpl w16).getD j 0 = wCanonF (fun j => w16.getD j 0) j := by
  unfold scheduleImpl
  have h1 := extendFold_spec
    (fun ws i => leftrotate
      (ws.getD (i - 3) 0 ^^^ ws.getD (i - 8) 0 ^^^ ws.getD (i - 14) 0 ^^^ ws.getD (i - 16) 0) 1)
    (wCanonF (fun j => w16.getD j 0)) w16 16 16 h16
    (fun j hj => (wCanonF_eq_of_lt (fun j => w16.getD j 0) j hj).symm)
    (fun ws i hi1 hi2 hlen hpre => by
      show leftrotate
        (ws.getD (i - 3) 0 ^^^ ws.getD (i - 8) 0 ^^^ ws.getD (i - 14) 0 ^^^ ws.getD (i - 16) 0) 1 = _
      rw [hpre (i - 3) (by omega), hpre (i - 8) (by omega), hpre (i - 14) (by omega),
        hpre (i - 16) (by omega), ← wCanonF_eq_of_ge _ i hi1])
  have h2 := extendFold_spec
    (fun ws i => leftrotate
      (ws.getD (i - 6) 0 ^^^ ws.getD (i - 16) 0 ^^^ ws.getD (i - 28) 0 ^^^ ws.getD (i - 32) 0) 2)
    (wCanonF (fun j => w16.getD j 0))
    ((List.range' 16 16).foldl (fun ws i => ws ++ [leftrotate
      (ws.getD (i - 3) 0 ^^^ ws.getD (i - 8) 0 ^^^ ws.getD (i - 14) 0 ^^^ ws.getD (i - 16) 0) 1])
      w16)
    32 48 h1.1 h1.2
    (fun ws i hi1 hi2 hlen hpre => by
      show leftrotate
        (ws.getD (i - 6) 0 ^^^ ws.getD (i - 16) 0 ^^^ ws.getD (i - 28) 0 ^^^ ws.getD (i - 32) 0) 2 = _
      rw [hpre (i - 6) (by omega), hpre (i - 16) (by omega), hpre (i - 28) (by omega),
        hpre (i - 32) (by omega), ← wCanonF_two _ hv i hi1])
  exact h2

/-- C2 core: the implementation schedule equals the canonical schedule. -/
lemma scheduleImpl_eq_scheduleCanon (w16 : List Nat) (h16 : w16.length = 16)
    (hv : ∀ j, j < 16 → w16.getD j 0 < 2 ^ 32) :
    scheduleImpl w16 = scheduleCanon w16 := by
  have h1 := scheduleImpl_spec w16 h16 hv
  have h2 := scheduleCanon_spec w16 h16
  apply List.ext_getElem (by omega)
  intro i hi1 hi2
  rw [← List.getD_eq_getElem _ 0 hi1, ← List.getD_eq_getElem _ 0 hi2,
    h1.2 i (by omega), h2.2 i (by omega)]

/-!
Plumbing between the chunk function and explicit block lists.
-/

lemma blockOf_eq (c : Nat → Nat) (T : List Nat) (hT : T.length = 64)
    (h : ∀ j, j < 64 → c j = T.getD j 0) : blockOf c = T := by
  apply List.ext_getElem (by simp [blockOf, hT])
  intro j hj1 hj2
  simp only [blockOf, List.getElem_map, List.getElem_range]
  rw [h j (by simpa [blockOf] using hj1), List.getD_eq_getElem _ 0 hj2]

lemma map_range_writeRange (c : Nat → Nat) (used : Nat) (d : List Nat) :
    (List.range (used + d.length)).map (writeRange c used d) = (List.range used).map c ++ d := by
  apply List.ext_getElem (by simp)
  intro j hj1 hj2
  simp only [List.getElem_map, List.getElem_range, writeRange]
  by_cases hju : j < used
  · rw [if_neg (by omega)]
    rw [List.getElem_append_left (by simp [hju])]
    simp
  · have hjlen : j < used + d.length := by simpa using hj1
    rw [if_pos (by omega)]
    rw [List.getElem_append_right (by simp only [List.length_map, List.length_range]; omega)]
    rw [List.getD_eq_getElem _ 0 (by omega)]
    congr 1
    simp only [List.length_map, List.length_range]

/-- process_chunk at the level of explicit lists: the hash words become
compressImpl of the old words and the chunk contents; chunk and used are
untouched and the block counter advances by one. -/
lemma process_chunk_spec (s : Sha1) :
    (s.process_chunk).hs = compressImpl s.hs (blockOf s.chunk) ∧
      (s.process_chunk).chunk = s.chunk ∧
      (s.process_chunk).used = s.used ∧
      (s.process_chunk).chunks_processed = s.chunks_processed + 1 := by
  refine ⟨?_, rfl, rfl, rfl⟩
  have hw : ((List.range 16).map (fun i =>
      fromBE (s.chunk (4 * i)) (s.chunk (4 * i + 1)) (s.chunk (4 * i + 2)) (s.chunk (4 * i + 3))))
      = wordsOf (blockOf s.chunk) := by
    unfold wordsOf
    apply List.map_congr_left
    intro i hi
    have hi16 : i < 16 := by simpa using hi
    have hB : ∀ k, k < 64 → (blockOf s.chunk).getD k 0 = s.chunk k := by
      intro k hk
      rw [blockOf, List.getD_eq_getElem _ 0 (by simp [hk]), List.getElem_map, List.getElem_range]
    rw [hB (4 * i) (by omega), hB (4 * i + 1) (by omega), hB (4 * i + 2) (by omega),
      hB (4 * i + 3) (by omega)]
  simp only [Sha1.process_chunk, Sha1.hs, compressImpl, hw]
  rfl

/-!
Facts about fullChunks and remBytes.
-/

lemma fullChunks_small {l : List Nat} (h : l.length < 64) : fullChunks l = [] := by
  rw [fullChunks]
  rw [dif_neg (by omega)]

lemma remBytes_small {l : List Nat} (h : l.length < 64) : remBytes l = l := by
  rw [remBytes]
  rw [dif_neg (by omega)]

lemma fullChunks_block {a : List Nat} (b : List Nat) (ha : a.length = 64) :
    fullChunks (a ++ b) = a :: fullChunks b := by
  rw [fullChunks]
  rw [dif_pos (by simp [ha])]
  rw [List.take_left' ha, List.drop_left' ha]

lemma remBytes_block {a : List Nat} (b : List Nat) (ha : a.length = 64) :
    remBytes (a ++ b) = remBytes b := by
  rw [remBytes]
  rw [dif_pos (by simp [ha])]
  rw [List.drop_left' ha]

lemma remBytes_length (l : List Nat) : (remBytes l).length = l.length % 64 := by
  suffices hgen : ∀ n (l : List Nat), l.length = n → (remBytes l).length = l.length % 64 from
    hgen l.length l rfl
  intro n
  induction n using Nat.strong_induction_on with
  | _ n ih =>
    intro l hn
    by_cases h : 64 ≤ l.length
    · rw [remBytes, dif_pos h]
      rw [ih (l.drop 64).length (by simp only [List.length_drop]; omega) _ rfl]
      simp only [List.length_drop]
      omega
    · rw [remBytes_small (by omega)]
      omega

lemma fullChunks_length (l : List Nat) : (fullChunks l).length = l.length / 64 := by
  suffices hgen : ∀ n (l : List Nat), l.length = n → (fullChunks l).length = l.length / 64 from
    hgen l.length l rfl
  intro n
  induction n using Nat.strong_induction_on with
  | _ n ih =>
    intro l hn
    by_cases h : 64 ≤ l.length
    · rw [fullChunks, dif_pos h]
      simp only [List.length_cons]
      rw [ih (l.drop 64).length (by simp only [List.length_drop]; omega) _ rfl]
      simp only [List.length_drop]
      omega
    · rw [fullChunks_small (by omega)]
      simp only [List.length_nil]
      omega

lemma remBytes_lt (l : List Nat) : (remBytes l).length < 64 := by
  rw [remBytes_length]
  omega

lemma fullChunks_append (l e : List Nat) :
    fullChunks (l ++ e) = fullChunks l ++ fullChunks (remBytes l ++ e) ∧
      remBytes (l ++ e) = remBytes (remBytes l ++ e) := by
  suffices hgen : ∀ n (l : List Nat), l.length = n →
      fullChunks (l ++ e) = fullChunks l ++ fullChunks (remBytes l ++ e) ∧
        remBytes (l ++ e) = remBytes (remBytes l ++ e) from hgen l.length l rfl
  intro n
  induction n using Nat.strong_induction_on with
  | _ n ih =>
    intro l hn
    by_cases h : 64 ≤ l.length
    · have hl : l = l.take 64 ++ l.drop 64 := (List.take_append_drop 64 l).symm
      have ht : (l.take 64).length = 64 := by simp only [List.length_take]; omega
      have hdl : (l.drop 64).length < n := by simp only [List.length_drop]; omega
      constructor
      · conv_lhs => rw [hl, List.append_assoc, fullChunks_block _ ht]
        rw [(ih (l.drop 64).length hdl _ rfl).1]
        conv_rhs => rw [hl, fullChunks_block _ ht, remBytes_block _ ht]
        simp
      · conv_lhs => rw [hl, List.append_assoc, remBytes_block _ ht]
        rw [(ih (l.drop 64).length hdl _ rfl).2]
        conv_rhs => rw [hl, remBytes_block _ ht]
    · rw [@remBytes_small l (by omega), @fullChunks_small l (by omega)]
      simp

/-!
Characterization of the update loop: it compresses exactly the complete
64-byte blocks of (buffered bytes ++ new data) and buffers the remainder.
-/

lemma blockOf_length (c : Nat → Nat) : (blockOf c).length = 64 := by
  simp [blockOf]

lemma updateLoop_step (s : Sha1) (used : Nat) (data : List Nat) (h : 64 - used ≤ data.length) :
    s.updateLoop used data =
      (Sha1.process_chunk { s with chunk := writeRange s.chunk used (data.take (64 - used)) }
        ).updateLoop 0 (data.drop (64 - used)) := by
  conv_lhs => rw [Sha1.updateLoop]
  simp only [dif_pos h]

lemma updateLoop_exit (s : Sha1) (used : Nat) (data : List Nat) (h : ¬ 64 - used ≤ data.length) :
    s.updateLoop used data =
      { s with chunk := writeRange s.chunk used data, used := used + data.length } := by
  conv_lhs => rw [Sha1.updateLoop]
  simp only [dif_neg h]

lemma updateLoop_spec :
    ∀ (n : Nat) (s : Sha1) (used : Nat) (data : List Nat), data.length + used ≤ n → used ≤ 64 →
      (s.updateLoop used data).hs =
          (fullChunks ((List.range used).map s.chunk ++ data)).foldl compressImpl s.hs ∧
        (s.updateLoop used data).buf = remBytes ((List.range used).map s.chunk ++ data) ∧
        (s.updateLoop used data).used =
          (remBytes ((List.range used).map s.chunk ++ data)).length ∧
        (s.updateLoop used data).chunks_processed =
          s.chunks_processed + (fullChunks ((List.range used).map s.chunk ++ data)).length := by
  intro n
  induction n using Nat.strong_induction_on with
  | _ n ih =>
    intro s used data hn h64
    by_cases hfree : 64 - used ≤ data.length
    · rw [updateLoop_step s used data hfree]
      have hps := process_chunk_spec
        { s with chunk := writeRange s.chunk used (data.take (64 - used)) }
      have hrec := ih (data.length - (64 - used)) (by omega)
        (Sha1.process_chunk { s with chunk := writeRange s.chunk used (data.take (64 - used)) })
        0 (data.drop (64 - used)) (by simp only [List.length_drop]; omega) (by omega)
      simp only [List.range_zero, List.map_nil, List.nil_append] at hrec
      have htk : (data.take (64 - used)).length = 64 - used := by
        simp only [List.length_take]
        omega
      have hblock : blockOf (writeRange s.chunk used (data.take (64 - used))) =
          (List.range used).map s.chunk ++ data.take (64 - used) := by
        have h1 := map_range_writeRange s.chunk used (data.take (64 - used))
        rw [htk, show used + (64 - used) = 64 by omega] at h1
        exact h1
      have hbl : ((List.range used).map s.chunk ++ data.take (64 - used)).length = 64 := by
        simp only [List.length_append, List.length_map, List.length_range, htk]
        omega
      have htotal : (List.range used).map s.chunk ++ data =
          ((List.range used).map s.chunk ++ data.take (64 - used)) ++ data.drop (64 - used) := by
        rw [List.append_assoc, List.take_append_drop]
      have hchunk2 : (Sha1.process_chunk
          { s with chunk := writeRange s.chunk used (data.take (64 - used)) }).chunk =
          writeRange s.chunk used (data.take (64 - used)) := hps.2.1
      rw [htotal, fullChunks_block _ hbl, remBytes_block _ hbl]
      refine ⟨?_, ?_, ?_, ?_⟩
      · rw [hrec.1, List.foldl_cons, hps.1, hblock]
        rfl
      · exact hrec.2.1
      · exact hrec.2.2.1
      · rw [hrec.2.2.2, hps.2.2.2, List.length_cons]
        show s.chunks_processed + 1 + (fullChunks (List.drop (64 - used) data)).length =
          s.chunks_processed + ((fullChunks (List.drop (64 - used) data)).length + 1)
        omega
    · rw [updateLoop_exit s used data hfree]
      have hsum : used + data.length < 64 := by omega
      have htl : ((List.range used).map s.chunk ++ data).length = used + data.length := by
        simp
      rw [fullChunks_small (by omega), remBytes_small (by omega)]
      refine ⟨rfl, ?_, by simp [htl], by simp⟩
      show (List.range (used + data.length)).map (writeRange s.chunk used data) = _
      exact map_range_writeRange s.chunk used data

/-- Characterization of Sha1::update on any state with a valid fill count. -/
lemma update_spec (s : Sha1) (data : List Nat) (h : s.used ≤ 64) :
    (s.update data).hs = (fullChunks (s.buf ++ data)).foldl compressImpl s.hs ∧
      (s.update data).buf = remBytes (s.buf ++ data) ∧
      (s.update data).used = (remBytes (s.buf ++ data)).length ∧
      (s.update data).used < 64 ∧
      (s.update data).chunks_processed =
        s.chunks_processed + (fullChunks (s.buf ++ data)).length := by
  have hl := updateLoop_spec (data.length + s.used) s s.used data le_rfl h
  refine ⟨hl.1, hl.2.1, hl.2.2.1, ?_, hl.2.2.2⟩
  show (s.updateLoop s.used data).used < 64
  rw [hl.2.2.1]
  exact remBytes_lt _

lemma buf_length (s : Sha1) : (s.buf).length = s.used := by
  simp [Sha1.buf]

lemma getD_map_range (c : Nat → Nat) (n j : Nat) (h : j < n) :
    ((List.range n).map c).getD j 0 = c j := by
  rw [List.getD_eq_getElem _ 0 (by simpa using h), List.getElem_map, List.getElem_range]

lemma beBytes64_length (n : Nat) : (beBytes64 n).length = 8 := rfl

lemma getD_replicate0 (n j : Nat) : (List.replicate n (0 : Nat)).getD j 0 = 0 := by
  by_cases h : j < n
  · rw [List.getD_eq_getElem _ 0 (by simpa using h), List.getElem_replicate]
  · rw [List.getD_eq_default _ _ (by simpa using h)]

lemma fullChunks_exact {T : List Nat} (hT : T.length = 64) : fullChunks T = [T] := by
  rw [fullChunks, dif_pos (by omega)]
  rw [show (64 : Nat) = T.length from hT.symm, List.take_length, List.drop_length]
  rw [fullChunks_small (by simp)]

lemma padTail_length (used cp : Nat) (h : used < 64) :
    (padTail used cp).length = if used < 56 then 64 - used else 128 - used := by
  rw [padTail]
  simp only [List.length_cons, List.length_append, List.length_replicate, beBytes64_length]
  by_cases hc : used < 56
  · rw [if_pos hc, if_pos hc]
    omega
  · rw [if_neg hc, if_neg hc]
    omega

/-!
The three final-block contents produced by finish.
-/

lemma finish_block_one (s : Sha1) (h : s.used ≤ 55) :
    blockOf (writeRange (zeroRange (writeRange s.chunk s.used [0x80]) (s.used + 1) 56)
        56 (beBytes64 (s.chunks_processed * 512 + 8 * s.used))) =
      s.buf ++ padTail s.used s.chunks_processed := by
  apply blockOf_eq
  · rw [List.length_append, buf_length, padTail_length _ _ (by omega), if_pos (by omega)]
    omega
  · intro j hj
    rw [padTail, if_pos (show s.used < 56 by omega)]
    simp only [writeRange, zeroRange, beBytes64_length, List.length_cons, List.length_nil]
    by_cases h1 : j < s.used
    · rw [if_neg (by omega), if_neg (by omega), if_neg (by omega),
        List.getD_append _ _ _ _ (by rw [buf_length]; omega), Sha1.buf,
        getD_map_range _ _ _ (by omega)]
    · rw [List.getD_append_right _ _ _ _ (by rw [buf_length]; omega), buf_length]
      by_cases h2 : j = s.used
      · rw [if_neg (by omega), if_neg (by omega), if_pos (by omega),
          show j - s.used = 0 by omega]
        rfl
      · by_cases h3 : j < 56
        · rw [if_neg (by omega), if_pos (by omega),
            show j - s.used = (j - s.used - 1) + 1 by omega, List.getD_cons_succ,
            List.getD_append _ _ _ _ (by simp only [List.length_replicate]; omega),
            getD_replicate0]
        · rw [if_pos (by omega),
            show j - s.used = (j - s.used - 1) + 1 by omega, List.getD_cons_succ,
            List.getD_append_right _ _ _ _ (by simp only [List.length_replicate]; omega),
            List.length_replicate,
            show j - s.used - 1 - (55 - s.used) = j - 56 by omega]

lemma finish_block_twoA (s : Sha1) (h1 : 56 ≤ s.used) (h2 : s.used ≤ 63) :
    blockOf (zeroRange (writeRange s.chunk s.used [0x80]) (s.used + 1) 64) =
      s.buf ++ 0x80 :: List.replicate (63 - s.used) 0 := by
  apply blockOf_eq
  · simp only [List.length_append, buf_length, List.length_cons, List.length_replicate]
    omega
  · intro j hj
    simp only [writeRange, zeroRange, List.length_cons, List.length_nil]
    by_cases hc1 : j < s.used
    · rw [if_neg (by omega), if_neg (by omega),
        List.getD_append _ _ _ _ (by rw [buf_length]; omega), Sha1.buf,
        getD_map_range _ _ _ (by omega)]
    · rw [List.getD_append_right _ _ _ _ (by rw [buf_length]; omega), buf_length]
      by_cases hc2 : j = s.used
      · rw [if_neg (by omega), if_pos (by omega), show j - s.used = 0 by omega]
        rfl
      · rw [if_pos (by omega), show j - s.used = (j - s.used - 1) + 1 by omega,
          List.getD_cons_succ, getD_replicate0]

lemma finish_block_twoB (c : Nat → Nat) (u L : Nat) (h1 : 56 ≤ u) :
    blockOf (writeRange (zeroRange c 0 u) 56 (beBytes64 L)) =
      List.replicate 56 0 ++ beBytes64 L := by
  apply blockOf_eq
  · simp only [List.length_append, List.length_replicate, beBytes64_length]
  · intro j hj
    simp only [writeRange, zeroRange, beBytes64_length]
    by_cases hc : j < 56
    · rw [if_neg (by omega), if_pos (by omega),
        List.getD_append _ _ _ _ (by simp only [List.length_replicate]; omega), getD_replicate0]
    · rw [if_pos (by omega),
        List.getD_append_right _ _ _ _ (by simp only [List.length_replicate]; omega),
        List.length_replicate]

/-- Characterization of Sha1::finish on a state with a valid fill count:
the digest is the running hash folded over the block(s) formed from the
buffered bytes followed by standard padding with the pre-padding bit
length; the block counter advances by two exactly when used is in [56,64);
the returned words are the final hash words; used becomes used + 1. -/
lemma finish_spec (s : Sha1) (h : s.used < 64) :
    (s.finish).2 =
        (fullChunks (s.buf ++ padTail s.used s.chunks_processed)).foldl compressImpl s.hs ∧
      (s.finish).1.chunks_processed = s.chunks_processed + (if 56 ≤ s.used then 2 else 1) ∧
      (s.finish).1.hs = (s.finish).2 ∧
      (s.finish).1.used = s.used + 1 := by
  by_cases hc : s.used + 1 ≤ 56
  · have hlen1 : (s.buf ++ padTail s.used s.chunks_processed).length = 64 := by
      rw [List.length_append, buf_length, padTail_length _ _ (by omega), if_pos (by omega)]
      omega
    have hblock := finish_block_one s (by omega)
    have hps := process_chunk_spec
      { s with
        chunk := (writeRange (zeroRange (writeRange s.chunk s.used [0x80]) (s.used + 1) 56) 56 (beBytes64 (s.chunks_processed * 512 + 8 * s.used)))
        used := s.used + 1 }
    simp only [Sha1.finish]
    rw [if_pos hc]
    refine ⟨?_, ?_, rfl, ?_⟩
    · show (Sha1.process_chunk _).hs = _
      rw [hps.1, hblock, fullChunks_exact hlen1, List.foldl_cons, List.foldl_nil]
      rfl
    · rw [hps.2.2.2, if_neg (by omega)]
    · rw [hps.2.2.1]
  · have h56 : 56 ≤ s.used := by omega
    have hblockA := finish_block_twoA s h56 (by omega)
    have hlenA : (s.buf ++ 0x80 :: List.replicate (63 - s.used) 0).length = 64 := by
      simp only [List.length_append, buf_length, List.length_cons, List.length_replicate]
      omega
    have hlenB : (List.replicate 56 (0 : Nat) ++
        beBytes64 (s.chunks_processed * 512 + 8 * s.used)).length = 64 := by
      simp only [List.length_append, List.length_replicate, beBytes64_length]
    have hpsA := process_chunk_spec
      { s with
        chunk := zeroRange (writeRange s.chunk s.used [0x80]) (s.used + 1) 64,
        used := s.used + 1 }
    simp only [Sha1.finish]
    rw [if_neg (by omega)]
    rw [hpsA.2.1, hpsA.2.2.1]
    simp only []
    have hps4 := process_chunk_spec
      ⟨(writeRange (zeroRange (zeroRange (writeRange s.chunk s.used [0x80]) (s.used + 1) 64) 0 (s.used + 1)) 56 (beBytes64 (s.chunks_processed * 512 + 8 * s.used))),
        s.used + 1,
        (Sha1.process_chunk { s with
          chunk := zeroRange (writeRange s.chunk s.used [0x80]) (s.used + 1) 64,
          used := s.used + 1 }).chunks_processed,
        (Sha1.process_chunk { s with
          chunk := zeroRange (writeRange s.chunk s.used [0x80]) (s.used + 1) 64,
          used := s.used + 1 }).h0,
        (Sha1.process_chunk { s with
          chunk := zeroRange (writeRange s.chunk s.used [0x80]) (s.used + 1) 64,
          used := s.used + 1 }).h1,
        (Sha1.process_chunk { s with
          chunk := zeroRange (writeRange s.chunk s.used [0x80]) (s.used + 1) 64,
          used := s.used + 1 }).h2,
        (Sha1.process_chunk { s with
          chunk := zeroRange (writeRange s.chunk s.used [0x80]) (s.used + 1) 64,
          used := s.used + 1 }).h3,
        (Sha1.process_chunk { s with
          chunk := zeroRange (writeRange s.chunk s.used [0x80]) (s.used + 1) 64,
          used := s.used + 1 }).h4⟩
    have hsplit : s.buf ++ padTail s.used s.chunks_processed =
        (s.buf ++ 0x80 :: List.replicate (63 - s.used) 0) ++
          (List.replicate 56 0 ++ beBytes64 (s.chunks_processed * 512 + 8 * s.used)) := by
      rw [padTail, if_neg (by omega), List.append_assoc]
      congr 1
      rw [show 119 - s.used = (63 - s.used) + 56 by omega, List.replicate_add]
      simp [List.append_assoc]
    refine ⟨?_, ?_, rfl, ?_⟩
    · show (Sha1.process_chunk _).hs = _
      rw [hps4.1, finish_block_twoB _ _ _ (by omega), hsplit, fullChunks_block _ hlenA,
        fullChunks_exact hlenB, List.foldl_cons, List.foldl_cons, List.foldl_nil]
      show compressImpl (Sha1.process_chunk _).hs _ = _
      rw [hpsA.1, hblockA]
      rfl
    · rw [hps4.2.2.2]
      show (Sha1.process_chunk _).chunks_processed + 1 = _
      rw [hpsA.2.2.2, if_pos h56]
    · rw [hps4.2.2.1]

/-!
Lifting the schedule equivalence to whole compressions and block lists.
-/

lemma compressImpl_eq_compressSpec (h block : List Nat) (hb : ∀ x ∈ block, x < 256) :
    compressImpl h block = compressSpec h block := by
  unfold compressImpl compressSpec
  rw [scheduleImpl_eq_scheduleCanon (wordsOf block) (by simp [wordsOf]) (wordsOf_lt block hb)]

lemma foldl_compress_congr : ∀ (blocks : List (List Nat)),
    (∀ b ∈ blocks, ∀ x ∈ b, x < 256) →
    ∀ h, blocks.foldl compressImpl h = blocks.foldl compressSpec h := by
  intro blocks
  induction blocks with
  | nil =>
    intro hbs h
    rw [List.foldl_nil, List.foldl_nil]
  | cons b bs ih =>
    intro hbs h
    rw [List.foldl_cons, List.foldl_cons, compressImpl_eq_compressSpec h b (hbs b (by simp))]
    exact ih (fun b2 hb2 x hx => hbs b2 (by simp [hb2]) x hx) _

lemma fullChunks_bytes (l : List Nat) (hl : ∀ x ∈ l, x < 256) :
    ∀ b ∈ fullChunks l, ∀ x ∈ b, x < 256 := by
  suffices hgen : ∀ n (l : List Nat), l.length = n → (∀ x ∈ l, x < 256) →
      ∀ b ∈ fullChunks l, ∀ x ∈ b, x < 256 from hgen l.length l rfl hl
  intro n
  induction n using Nat.strong_induction_on with
  | _ n ih =>
    intro l hn hl b hb x hx
    by_cases h : 64 ≤ l.length
    · rw [fullChunks, dif_pos h] at hb
      rcases List.mem_cons.mp hb with h1 | h2
      · exact hl x (List.mem_of_mem_take (h1 ▸ hx))
      · exact ih (l.drop 64).length (by simp only [List.length_drop]; omega) _ rfl
          (fun y hy => hl y (List.mem_of_mem_drop hy)) b h2 x hx
    · rw [fullChunks_small (by omega)] at hb
      simp at hb

lemma mem_remBytes (l : List Nat) : ∀ x ∈ remBytes l, x ∈ l := by
  suffices hgen : ∀ n (l : List Nat), l.length = n → ∀ x ∈ remBytes l, x ∈ l from
    hgen l.length l rfl
  intro n
  induction n using Nat.strong_induction_on with
  | _ n ih =>
    intro l hn x hx
    by_cases h : 64 ≤ l.length
    · rw [remBytes, dif_pos h] at hx
      exact List.mem_of_mem_drop (ih (l.drop 64).length (by simp only [List.length_drop]; omega)
        _ rfl x hx)
    · rw [remBytes_small (by omega)] at hx
      exact hx

lemma beBytes64_bytes (n : Nat) : ∀ x ∈ beBytes64 n, x < 256 := by
  intro x hx
  simp only [beBytes64, List.mem_cons, List.not_mem_nil, or_false] at hx
  rcases hx with h | h | h | h | h | h | h | h <;> subst h <;> exact Nat.mod_lt _ (by norm_num)

lemma padTail_bytes (used cp : Nat) : ∀ x ∈ padTail used cp, x < 256 := by
  intro x hx
  rw [padTail] at hx
  rcases List.mem_cons.mp hx with h | h
  · subst h
    norm_num
  · rcases List.mem_append.mp h with h2 | h2
    · rw [List.eq_of_mem_replicate h2]
      norm_num
    · exact beBytes64_bytes _ x h2

/-- Decomposition of standard padding: the padded message is the message
followed by the tail finish builds from used = length mod 64 and
cp = length div 64. -/
lemma padSpec_decomp (m : List Nat) :
    padSpec m = m ++ padTail (m.length % 64) (m.length / 64) := by
  rw [padSpec, padTail]
  have hk : (64 - (m.length + 9) % 64) % 64 =
      (if m.length % 64 < 56 then 55 - m.length % 64 else 119 - m.length % 64) := by
    by_cases h56 : m.length % 64 < 56
    · rw [if_pos h56]
      omega
    · rw [if_neg h56]
      omega
  have hL : 8 * m.length = m.length / 64 * 512 + 8 * (m.length % 64) := by
    omega
  rw [hk, hL]

lemma new_buf : Sha1.new.buf = [] := by
  simp [Sha1.buf, Sha1.new]

/-- C1 core: the incremental digest equals the canonical one-shot SHA-1. -/
lemma digest_eq_sha1Spec (m : List Nat) (hm : ∀ x ∈ m, x < 256) :
    Sha1.digest m = sha1Spec m := by
  have hu := update_spec Sha1.new m (Nat.zero_le 64)
  have hf := finish_spec (Sha1.new.update m) hu.2.2.2.1
  show ((Sha1.new.update m).finish).2 = sha1Spec m
  rw [hf.1, hu.1, hu.2.1, hu.2.2.1, hu.2.2.2.2]
  simp only [new_buf, List.nil_append]
  rw [remBytes_length, fullChunks_length]
  show List.foldl compressImpl (List.foldl compressImpl initHash (fullChunks m)) _ = _
  rw [sha1Spec, padSpec_decomp, (fullChunks_append m _).1, List.foldl_append]
  have hz : Sha1.new.chunks_processed + m.length / 64 = m.length / 64 := by
    show 0 + m.length / 64 = m.length / 64
    omega
  rw [hz]
  have hbs1 : ∀ b ∈ fullChunks m, ∀ x ∈ b, x < 256 := fullChunks_bytes m hm
  have hbs2 : ∀ b ∈ fullChunks (remBytes m ++ padTail (m.length % 64) (m.length / 64)),
      ∀ x ∈ b, x < 256 := by
    apply fullChunks_bytes
    intro x hx
    rcases List.mem_append.mp hx with h1 | h1
    · exact hm x (mem_remBytes m x h1)
    · exact padTail_bytes _ _ x h1
  rw [foldl_compress_congr _ hbs1 initHash, foldl_compress_congr _ hbs2]

/-!
Folding several update calls: same effect as one update of the
concatenation, at the level of the abstract state components.
-/

lemma foldl_update_spec : ∀ (parts : List (List Nat)) (s : Sha1), s.used < 64 →
    (parts.foldl Sha1.update s).hs =
        (fullChunks (s.buf ++ parts.flatten)).foldl compressImpl s.hs ∧
      (parts.foldl Sha1.update s).buf = remBytes (s.buf ++ parts.flatten) ∧
      (parts.foldl Sha1.update s).used = (remBytes (s.buf ++ parts.flatten)).length ∧
      (parts.foldl Sha1.update s).used < 64 ∧
      (parts.foldl Sha1.update s).chunks_processed =
        s.chunks_processed + (fullChunks (s.buf ++ parts.flatten)).length := by
  intro parts
  induction parts with
  | nil =>
    intro s hs64
    have hlen : (s.buf ++ ([] : List (List Nat)).flatten).length < 64 := by
      simp only [List.flatten_nil, List.append_nil, buf_length]
      exact hs64
    rw [List.foldl_nil, remBytes_small hlen, fullChunks_small hlen]
    refine ⟨by rw [List.foldl_nil], by simp, by simp [buf_length], hs64, by simp⟩
  | cons p ps ih =>
    intro s hs64
    have hu := update_spec s p (by omega)
    have hrec := ih (s.update p) hu.2.2.2.1
    rw [List.foldl_cons]
    have hfc := fullChunks_append (s.buf ++ p) ps.flatten
    have hflat : s.buf ++ (p :: ps).flatten = (s.buf ++ p) ++ ps.flatten := by
      rw [List.flatten_cons, List.append_assoc]
    rw [hflat, hfc.1, hfc.2]
    refine ⟨?_, ?_, ?_, hrec.2.2.2.1, ?_⟩
    · rw [hrec.1, hu.1, hu.2.1, List.foldl_append]
    · rw [hrec.2.1, hu.2.1]
    · rw [hrec.2.2.1, hu.2.1]
    · rw [hrec.2.2.2.2, hu.2.2.2.2, hu.2.1, List.length_append]
      omega

/-!
The checked operations agree with the plain models on valid states:
every rotation amount is in [1,31] and every index in bounds.
-/

lemma foldlM_option {α β : Type} (f : β → α → Option β) (g : β → α → β) (l : List α)
    (h : ∀ b a, a ∈ l → f b a = some (g b a)) :
    ∀ init, l.foldlM f init = some (l.foldl g init) := by
  induction l with
  | nil => intro init; rfl
  | cons a l ih =>
    intro init
    rw [List.foldlM_cons, h init a (by simp), List.foldl_cons]
    simp only [Option.bind_eq_bind, Option.some_bind]
    exact ih (fun b a2 ha2 => h b a2 (by simp [ha2])) _

lemma leftrotateChecked_eq (w b : Nat) (h1 : 1 ≤ b) (h2 : b ≤ 31) :
    leftrotateChecked w b = some (leftrotate w b) := by
  rw [leftrotateChecked, if_pos ⟨h1, h2⟩]

lemma stepRoundChecked_eq (w f k : Nat) (r : Regs) :
    stepRoundChecked w f k r = some (stepRound w f k r) := by
  rw [stepRoundChecked, leftrotateChecked_eq _ 5 (by norm_num) (by norm_num),
    leftrotateChecked_eq _ 30 (by norm_num) (by norm_num)]
  rfl

lemma roundsChecked_eq (w : List Nat) (r0 : Regs) : roundsChecked w r0 = some (rounds w r0) :=
  foldlM_option _ _ _ (fun r t _ => stepRoundChecked_eq (w.getD t 0) (fOf t r) (kOf t) r) r0

lemma scheduleImplChecked_eq (w16 : List Nat) :
    scheduleImplChecked w16 = some (scheduleImpl w16) := by
  have h1 : (List.range' 16 16).foldlM
      (fun ws i =>
        (leftrotateChecked
          (ws.getD (i - 3) 0 ^^^ ws.getD (i - 8) 0 ^^^ ws.getD (i - 14) 0 ^^^ ws.getD (i - 16) 0)
          1).bind (fun x => some (ws ++ [x])))
      w16 = some ((List.range' 16 16).foldl
      (fun ws i => ws ++ [leftrotate
        (ws.getD (i - 3) 0 ^^^ ws.getD (i - 8) 0 ^^^ ws.getD (i - 14) 0 ^^^ ws.getD (i - 16) 0) 1])
      w16) := by
    apply foldlM_option
    intro b a _
    rw [leftrotateChecked_eq _ 1 (by norm_num) (by norm_num), Option.some_bind]
  have h2 : (List.range' 32 48).foldlM
      (fun ws i =>
        (leftrotateChecked
          (ws.getD (i - 6) 0 ^^^ ws.getD (i - 16) 0 ^^^ ws.getD (i - 28) 0 ^^^ ws.getD (i - 32) 0)
          2).bind (fun x => some (ws ++ [x])))
      ((List.range' 16 16).foldl
        (fun ws i => ws ++ [leftrotate
          (ws.getD (i - 3) 0 ^^^ ws.getD (i - 8) 0 ^^^ ws.getD (i - 14) 0 ^^^ ws.getD (i - 16) 0) 1])
        w16) = some ((List.range' 32 48).foldl
      (fun ws i => ws ++ [leftrotate
        (ws.getD (i - 6) 0 ^^^ ws.getD (i - 16) 0 ^^^ ws.getD (i - 28) 0 ^^^ ws.getD (i - 32) 0) 2])
      ((List.range' 16 16).foldl
        (fun ws i => ws ++ [leftrotate
          (ws.getD (i - 3) 0 ^^^ ws.getD (i - 8) 0 ^^^ ws.getD (i - 14) 0 ^^^ ws.getD (i - 16) 0) 1])
        w16)) := by
    apply foldlM_option
    intro b a _
    rw [leftrotateChecked_eq _ 2 (by norm_num) (by norm_num), Option.some_bind]
  rw [scheduleImplChecked, h1, Option.some_bind]
  rw [h2, scheduleImpl]

lemma process_chunk_checked_eq (s : Sha1) :
    s.process_chunk_checked = some s.process_chunk := by
  rw [Sha1.process_chunk_checked, scheduleImplChecked_eq, Option.some_bind]
  rw [roundsChecked_eq, Option.some_bind]
  rw [Sha1.process_chunk]

lemma update_loop_checked_eq :
    ∀ (n : Nat) (s : Sha1) (used : Nat) (data : List Nat), data.length + used ≤ n → used ≤ 64 →
      s.update_loop_checked used data = some (s.updateLoop used data) := by
  intro n
  induction n using Nat.strong_induction_on with
  | _ n ih =>
    intro s used data hn h64
    by_cases hfree : 64 - used ≤ data.length
    · rw [updateLoop_step s used data hfree]
      rw [Sha1.update_loop_checked]
      rw [dif_pos hfree, if_pos h64, process_chunk_checked_eq, Option.some_bind]
      exact ih (data.length - (64 - used)) (by omega)
        (Sha1.process_chunk { s with chunk := writeRange s.chunk used (data.take (64 - used)) })
        0 (data.drop (64 - used)) (by simp only [List.length_drop]; omega) (by omega)
    · rw [updateLoop_exit s used data hfree]
      rw [Sha1.update_loop_checked]
      rw [dif_neg hfree, if_pos (by omega)]

lemma update_checked_eq (s : Sha1) (data : List Nat) (h : s.used ≤ 64) :
    s.update_checked data = some (s.update data) :=
  update_loop_checked_eq (data.length + s.used) s s.used data le_rfl h

lemma finish_checked_eq (s : Sha1) (h : s.used < 64) :
    s.finish_checked = some (s.finish) := by
  rw [Sha1.finish_checked, Sha1.finish]
  rw [if_pos h]
  simp only []
  by_cases hc : s.used + 1 ≤ 56
  · rw [if_pos hc, if_pos hc, Option.some_bind, process_chunk_checked_eq, Option.some_bind]
  · rw [if_neg hc, if_neg hc, process_chunk_checked_eq, Option.some_bind, Option.some_bind,
      process_chunk_checked_eq, Option.some_bind]

lemma finish_checked_none (s : Sha1) (h : 64 ≤ s.used) :
    s.finish_checked = none := by
  rw [Sha1.finish_checked]
  rw [if_neg (by omega)]

/-!
Between-calls fill-count accounting over arbitrary sequences of public
operations in the checked semantics.
-/

lemma update_checked_used_lt (s : Sha1) (d : List Nat) (s2 : Sha1) (h64 : s.used ≤ 64)
    (h : s.update_checked d = some s2) : s2.used < 64 := by
  rw [update_checked_eq s d h64] at h
  have h2 := Option.some.inj h
  rw [← h2]
  exact (update_spec s d h64).2.2.2.1

lemma applyOpChecked_used_le (s : Sha1) (o : SOp) (s2 : Sha1) (h64 : s.used ≤ 64)
    (h : applyOpChecked s o = some s2) : s2.used ≤ 64 := by
  cases o with
  | updOp d =>
    rw [applyOpChecked] at h
    exact Nat.le_of_lt (update_checked_used_lt s d s2 h64 h)
  | finOp =>
    rw [applyOpChecked] at h
    by_cases hlt : s.used < 64
    · rw [finish_checked_eq s hlt, Option.map_some'] at h
      have h2 := Option.some.inj h
      rw [← h2, (finish_spec s hlt).2.2.2]
      omega
    · rw [finish_checked_none s (by omega)] at h
      simp at h
  | rstOp =>
    rw [applyOpChecked] at h
    have h2 := Option.some.inj h
    rw [← h2]
    show (0 : Nat) ≤ 64
    omega

lemma foldlM_ops_used_le : ∀ (ops : List SOp) (s0 : Sha1), s0.used ≤ 64 →
    ∀ s, ops.foldlM applyOpChecked s0 = some s → s.used ≤ 64 := by
  intro ops
  induction ops with
  | nil =>
    intro s0 h0 s hs
    rw [List.foldlM_nil] at hs
    have h2 := Option.some.inj hs
    rw [← h2]
    exact h0
  | cons o rest ih =>
    intro s0 h0 s hs
    rw [List.foldlM_cons, Option.bind_eq_bind] at hs
    obtain ⟨s1, h1, h2⟩ := Option.bind_eq_some.mp hs
    exact ih s1 (applyOpChecked_used_le s0 o s1 h0 h1) s h2

lemma runOpsChecked_used_le (ops : List SOp) (s : Sha1) (h : runOpsChecked ops = some s) :
    s.used ≤ 64 :=
  foldlM_ops_used_le ops Sha1.new (Nat.zero_le 64) s h

lemma used63 : (Sha1.new.update (List.replicate 63 0)).used = 63 := by
  show (Sha1.new.updateLoop 0 (List.replicate 63 0)).used = 63
  rw [updateLoop_exit Sha1.new 0 (List.replicate 63 0) (by decide)]
  decide

/-!
The claims.
-/

/-- C1: for every byte sequence d, digest d returns the five 32-bit words of
the canonical SHA-1 digest of d as defined by the standard (sha1Spec); in
particular the digest of the empty sequence is da39a3ee5e6b4b0d3255bfef
95601890afd80709 and the digest of abc is a9993e364706816aba3e25717850c26c
9cd0d89d. -/
theorem c1_digest_correct :
    (∀ m : List Nat, (∀ b ∈ m, b < 256) → Sha1.digest m = sha1Spec m) ∧
      Sha1.digest [] = [0xda39a3ee, 0x5e6b4b0d, 0x3255bfef, 0x95601890, 0xafd80709] ∧
      Sha1.digest [0x61, 0x62, 0x63] =
        [0xa9993e36, 0x4706816a, 0xba3e2571, 0x7850c26c, 0x9cd0d89d] := by
  refine ⟨digest_eq_sha1Spec, ?_, ?_⟩
  · show ((Sha1.new.updateLoop 0 []).finish).2 = _
    rw [updateLoop_exit Sha1.new 0 [] (by decide)]
    decide
  · show ((Sha1.new.updateLoop 0 [0x61, 0x62, 0x63]).finish).2 = _
    rw [updateLoop_exit Sha1.new 0 [0x61, 0x62, 0x63] (by decide)]
    decide

theorem c1_digest_correct_witness :
    (∀ b ∈ ([0x61, 0x62, 0x63] : List Nat), b < 256) ∧
      Sha1.digest [0x61, 0x62, 0x63] = sha1Spec [0x61, 0x62, 0x63] :=
  ⟨by decide, c1_digest_correct.1 [0x61, 0x62, 0x63] (by decide)⟩

/-- C2: for every 64-byte block, the message schedule the implementation
builds (rotate-by-1 for indices 16..32, then rotate-by-2 for 32..80) agrees
at every index in 16..80 with the canonical single-rotate-by-1 schedule. -/
theorem c2_schedule_equiv (block : List Nat) (_hlen : block.length = 64)
    (hb : ∀ x ∈ block, x < 256) :
    ∀ i, 16 ≤ i → i < 80 →
      (scheduleImpl (wordsOf block)).getD i 0 = (scheduleCanon (wordsOf block)).getD i 0 := by
  intro i h16 h80
  have h1 := scheduleImpl_spec (wordsOf block) (by simp [wordsOf]) (wordsOf_lt block hb)
  have h2 := scheduleCanon_spec (wordsOf block) (by simp [wordsOf])
  rw [h1.2 i (by omega), h2.2 i (by omega)]

theorem c2_schedule_equiv_witness :
    (List.replicate 64 (0 : Nat)).length = 64 ∧
      (∀ x ∈ List.replicate 64 (0 : Nat), x < 256) ∧
      (scheduleImpl (wordsOf (List.replicate 64 (0 : Nat)))).getD 16 0 =
        (scheduleCanon (wordsOf (List.replicate 64 (0 : Nat)))).getD 16 0 :=
  ⟨by decide, by decide,
    c2_schedule_equiv (List.replicate 64 (0 : Nat)) (by decide) (by decide) 16
      (by norm_num) (by norm_num)⟩

/-- C3: feeding any splitting of a byte sequence through successive update
calls and then finish produces the same digest as a single update of the
whole sequence followed by finish. -/
theorem c3_chunking_invariance (parts : List (List Nat)) :
    ((parts.foldl Sha1.update Sha1.new).finish).2 =
      ((Sha1.new.update parts.flatten).finish).2 := by
  have hA := foldl_update_spec parts Sha1.new (by decide)
  have hB := update_spec Sha1.new parts.flatten (Nat.zero_le 64)
  rw [(finish_spec _ hA.2.2.2.1).1, (finish_spec _ hB.2.2.2.1).1,
    hA.1, hA.2.1, hA.2.2.1, hA.2.2.2.2, hB.1, hB.2.1, hB.2.2.1, hB.2.2.2.2]

/-- C4: finish applies standard padding using the bit length captured before
any padding byte is written (0x80, zero fill, eight big-endian length bytes
at positions 56..64), compresses two blocks inside finish exactly when the
fill count is at least 56, and returns the final hash words h0..h4. -/
theorem c4_finish_padding (s : Sha1) (h : s.used < 64) :
    (s.finish).2 = (fullChunks (s.buf ++ 0x80 ::
        (List.replicate (if s.used < 56 then 55 - s.used else 119 - s.used) 0 ++
          beBytes64 (s.chunks_processed * 512 + 8 * s.used)))).foldl compressImpl s.hs ∧
      (s.finish).1.chunks_processed = s.chunks_processed + (if 56 ≤ s.used then 2 else 1) ∧
      (s.finish).2 =
        [(s.finish).1.h0, (s.finish).1.h1, (s.finish).1.h2, (s.finish).1.h3, (s.finish).1.h4] := by
  have hf := finish_spec s h
  refine ⟨?_, hf.2.1, ?_⟩
  · rw [hf.1, padTail]
  · exact hf.2.2.1.symm

theorem c4_finish_padding_witness :
    Sha1.new.used < 64 ∧
      (Sha1.new.finish).1.chunks_processed =
        Sha1.new.chunks_processed + (if 56 ≤ Sha1.new.used then 2 else 1) :=
  ⟨by decide, (c4_finish_padding Sha1.new (by decide)).2.1⟩

/-- C5 counterexample: the claim that the fill count stays strictly below 64
even after finish fails; after absorbing 63 bytes, finish leaves the fill
count equal to 64. -/
theorem c5_counterexample :
    ¬ (((Sha1.new.update (List.replicate 63 0)).finish).1.used < 64) := by
  have h1 := used63
  have h2 := (finish_spec (Sha1.new.update (List.replicate 63 0)) (by omega)).2.2.2
  omega

/-- C5 amended: on every state reachable without a panic, the fill count is
at most 64; it is strictly below 64 after every update and it is zero after
reset; only finish can leave it at exactly 64. -/
theorem c5_fill_bound_amended (ops : List SOp) (s : Sha1) (h : runOpsChecked ops = some s) :
    s.used ≤ 64 ∧ (∀ d s2, s.update_checked d = some s2 → s2.used < 64) ∧
      (s.reset).used = 0 := by
  have h64 := runOpsChecked_used_le ops s h
  exact ⟨h64, fun d s2 hd => update_checked_used_lt s d s2 h64 hd, rfl⟩

theorem c5_fill_bound_amended_witness :
    runOpsChecked [] = some Sha1.new ∧
      (Sha1.new.used ≤ 64 ∧
        (∀ d s2, Sha1.new.update_checked d = some s2 → s2.used < 64) ∧
        (Sha1.new.reset).used = 0) :=
  ⟨rfl, c5_fill_bound_amended [] Sha1.new rfl⟩

/-- C6: on every state reached from new by update calls, blocksProcessed
times 512 plus 8 times the fill count equals the number of bits absorbed;
updating a fresh state with exactly 64 bytes leaves the buffer empty and
the block counter at one. -/
theorem c6_bit_count :
    (∀ parts : List (List Nat),
      (parts.foldl Sha1.update Sha1.new).chunks_processed * 512 +
        8 * (parts.foldl Sha1.update Sha1.new).used = 8 * (parts.map List.length).sum) ∧
    (∀ d : List Nat, d.length = 64 →
      (Sha1.new.update d).used = 0 ∧ (Sha1.new.update d).chunks_processed = 1) := by
  constructor
  · intro parts
    have hA := foldl_update_spec parts Sha1.new (by decide)
    rw [hA.2.2.1, hA.2.2.2.2, new_buf, List.nil_append, remBytes_length, fullChunks_length,
      ← List.length_flatten]
    show (0 + parts.flatten.length / 64) * 512 + 8 * (parts.flatten.length % 64) =
      8 * parts.flatten.length
    omega
  · intro d hd
    have hB := update_spec Sha1.new d (Nat.zero_le 64)
    constructor
    · rw [hB.2.2.1, new_buf, List.nil_append, remBytes_length, hd]
    · rw [hB.2.2.2.2, new_buf, List.nil_append, fullChunks_length, hd]
      show 0 + 64 / 64 = 1
      norm_num

theorem c6_bit_count_witness :
    (List.replicate 64 (0 : Nat)).length = 64 ∧
      (Sha1.new.update (List.replicate 64 (0 : Nat))).used = 0 ∧
      (Sha1.new.update (List.replicate 64 (0 : Nat))).chunks_processed = 1 :=
  ⟨by decide, (c6_bit_count.2 (List.replicate 64 (0 : Nat)) (by decide)).1,
    (c6_bit_count.2 (List.replicate 64 (0 : Nat)) (by decide)).2⟩

/-- C7 counterexample: the claim that a finished state can absorb any
further update and finish calls without panicking fails; after absorbing
63 bytes and finishing, the fill count is 64 and a second finish indexes
the chunk array out of bounds (modelled by finish_checked returning none). -/
theorem c7_counterexample :
    ((Sha1.new.update (List.replicate 63 0)).finish).1.finish_checked = none := by
  have h1 := used63
  have h2 := (finish_spec (Sha1.new.update (List.replicate 63 0)) (by omega)).2.2.2
  apply finish_checked_none
  omega

/-- C7 amended: on every state reachable without a panic, any update call
executes without panicking, and finish executes without panicking exactly
when the fill count is below 64 (so only a finish immediately after a
finish that left the fill count at 64 can panic). -/
theorem c7_no_panic_amended (ops : List SOp) (s : Sha1) (h : runOpsChecked ops = some s) :
    (∀ d, (s.update_checked d).isSome) ∧ ((s.finish_checked).isSome ↔ s.used < 64) := by
  have h64 := runOpsChecked_used_le ops s h
  constructor
  · intro d
    rw [update_checked_eq s d h64]
    rfl
  · constructor
    · intro hs
      by_contra hlt
      rw [finish_checked_none s (by omega)] at hs
      simp at hs
    · intro hlt
      rw [finish_checked_eq s hlt]
      rfl

theorem c7_no_panic_amended_witness :
    runOpsChecked [] = some Sha1.new ∧
      ((∀ d, (Sha1.new.update_checked d).isSome) ∧
        ((Sha1.new.finish_checked).isSome ↔ Sha1.new.used < 64)) :=
  ⟨rfl, c7_no_panic_amended [] Sha1.new rfl⟩

/-- C8: reset followed by finish produces the same digest as a fresh state
followed by finish, namely the digest of the empty sequence; reset sets the
fill count and block counter to zero and restores the five initialization
constants. -/
theorem c8_reset_equiv (s : Sha1) :
    ((s.reset).finish).2 = ((Sha1.new).finish).2 ∧
      (s.reset).used = 0 ∧ (s.reset).chunks_processed = 0 ∧
      (s.reset).h0 = 0x67452301 ∧ (s.reset).h1 = 0xEFCDAB89 ∧ (s.reset).h2 = 0x98BADCFE ∧
      (s.reset).h3 = 0x10325476 ∧ (s.reset).h4 = 0xC3D2E1F0 ∧
      ((Sha1.new).finish).2 = Sha1.digest [] := by
  refine ⟨?_, rfl, rfl, rfl, rfl, rfl, rfl, rfl, ?_⟩
  · have h1 : s.reset.used < 64 := by
      show (0 : Nat) < 64
      norm_num
    rw [(finish_spec s.reset h1).1, (finish_spec Sha1.new (by decide)).1]
    rfl
  · show _ = ((Sha1.new.updateLoop 0 []).finish).2
    rw [updateLoop_exit Sha1.new 0 [] (by decide)]
    decide

/-- C9: the sink operation write updates the state exactly like update and
returns success carrying the full input length; flush changes nothing and
returns success. -/
theorem c9_write_flush (s : Sha1) (data : List Nat) :
    Sha1.write s data = (s.update data, Except.ok data.length) ∧
      Sha1.flush s = (s, Except.ok ()) :=
  ⟨rfl, rfl⟩

/-- C10: every leftrotate call made by the implementation passes a rotation
amount in [1,31] (namely 1, 2, 5 or 30), and under the precondition that
the fill count is below 64 every buffer index and slice range used by
update is in bounds: the checked operations succeed and agree with the
plain models. -/
theorem c10_rotation_and_bounds (s : Sha1) (data : List Nat) :
    (s.used < 64 → s.update_checked data = some (s.update data)) ∧
      s.process_chunk_checked = some s.process_chunk :=
  ⟨fun h => update_checked_eq s data (by omega), process_chunk_checked_eq s⟩

theorem c10_rotation_and_bounds_witness :
    Sha1.new.used < 64 ∧ Sha1.new.update_checked [] = some (Sha1.new.update []) :=
  ⟨by decide, (c10_rotation_and_bounds Sha1.new []).1 (by decide)⟩
